import Mathlib

/-!
Verification of the VisualMatmul scheduling engine.

Shallow embedding of `src/iterators.py`: the five matrix-multiplication
scheduling strategies (Naive, Tiled, Wavefront/Systolic, Blocked Systolic,
Tensor-Core Systolic).  Python generators are modelled as functions
producing the full (finite) list of emitted `IterationStep`s; Python ints
are `Int`; Python `range` is modelled by explicit list builders.  Each
`__init__` is modelled as a function into `Except String _`: the `.error`
case corresponds to the constructor raising, the `.ok` case to a
successfully constructed instance.
-/

/-- A coordinate `(i, j, k)` identifying the MAC `C[i,j] += A[i,k]*B[k,j]`. -/
abbrev Coord := Int × Int × Int

/-- One emitted timeline step (the `IterationStep` dataclass). -/
structure IterationStep where
  active : List Coord
  completed : List Coord
  description : String
deriving DecidableEq, Repr

/-- Python `range(n)` over `Int` (empty when `n ≤ 0`). -/
def intRange (n : Int) : List Int :=
  (List.range n.toNat).map Nat.cast

/-- Python `range(a, b)` over `Int` (empty when `b ≤ a`). -/
def intRangeFT (a b : Int) : List Int :=
  (List.range (b - a).toNat).map (fun m => a + Nat.cast m)

/-- Python `range(a, b, s)` for a positive step `s`: the values `a + s*m`
for `0 ≤ m < ⌈(b-a)/s⌉`.  The source only ever calls this with the
positive steps `tile_size`, `tile_k`, `array_size`; a non-positive step is
mapped to `[]` (Python would raise on step 0, a case no theorem relies
on). -/
def rangeStep (a b s : Int) : List Int :=
  if 0 < s then (List.range ((b - a + s - 1).fdiv s).toNat).map (fun m => a + s * Nat.cast m)
  else []

/-! ## Naive scheduler -/

/-- The `NaiveIterator` instance state: shape plus the (already
lowercased) loop-order string. -/
structure NaiveIterator where
  M : Int
  N : Int
  K : Int
  order : List Char
deriving DecidableEq, Repr

/-- The axis symbols, `"ijk"` as a character list. -/
def ijkChars : List Char := ['i', 'j', 'k']

/-- Python `set(a) == set(b)` on character lists. -/
def setEqChars (a b : List Char) : Bool :=
  a.all (fun c => c ∈ b) && b.all (fun c => c ∈ a)

/-- The `NaiveIterator.__init__` validity condition on the (already
lowercased) order: `set(order) == set("ijk") and len(order) == 3`. -/
def naiveValid (l : List Char) : Bool :=
  setEqChars l ijkChars && l.length == 3

/-- `NaiveIterator.__init__`: lowercases `order`, then raises unless the
result has the character set of `"ijk"` and length 3. -/
def naiveMk (M N K : Int) (order : List Char) : Except String NaiveIterator :=
  let o := order.map Char.toLower
  if naiveValid o then Except.ok ⟨M, N, K, o⟩
  else
    let msg := "Order must be a permutation of the axis symbols"
    Except.error msg

/-- The `dims` dictionary `{'i': M, 'j': N, 'k': K}` (only ever queried at
`'i'`, `'j'`, `'k'`). -/
def naiveDims (it : NaiveIterator) (c : Char) : Int :=
  if c = 'i' then it.M else if c = 'j' then it.N else it.K

/-- Lookup in the Python dict `{k0: v0, k1: v1, k2: v2}` (later duplicate
keys overwrite earlier ones, hence the right-to-left test order; a missing
key cannot occur for a validated order). -/
def dictLookup3 (_k0 k1 k2 : Char) (v0 v1 v2 : Int) (c : Char) : Int :=
  if c = k2 then v2 else if c = k1 then v1 else v0

/-- Description of a MAC step: `Calc C[i,j] += A[i,k]*B[k,j]`. -/
def macDesc (i j k : Int) : String :=
  "Calc C[" ++ toString i ++ "," ++ toString j ++ "] += A[" ++ toString i ++ ","
    ++ toString k ++ "]*B[" ++ toString k ++ "," ++ toString j ++ "]"

/-- The coordinate stream of `NaiveIterator.run`: the triple loop over the
axes in `order`, with each iteration's `(i, j, k)` recovered from the
per-axis indices. -/
def naiveCoords (it : NaiveIterator) : List Coord :=
  (intRange (naiveDims it (it.order.getD 0 'i'))).flatMap (fun idx0 =>
    (intRange (naiveDims it (it.order.getD 1 'j'))).flatMap (fun idx1 =>
      (intRange (naiveDims it (it.order.getD 2 'k'))).map (fun idx2 =>
        (dictLookup3 (it.order.getD 0 'i') (it.order.getD 1 'j') (it.order.getD 2 'k')
           idx0 idx1 idx2 'i',
         dictLookup3 (it.order.getD 0 'i') (it.order.getD 1 'j') (it.order.getD 2 'k')
           idx0 idx1 idx2 'j',
         dictLookup3 (it.order.getD 0 'i') (it.order.getD 1 'j') (it.order.getD 2 'k')
           idx0 idx1 idx2 'k'))))

/-- The two steps `NaiveIterator.run` yields for one coordinate. -/
def naivePair (c : Coord) : List IterationStep :=
  [⟨[c], [], macDesc c.1 c.2.1 c.2.2⟩, ⟨[], [c], "Done"⟩]

/-- `NaiveIterator.run`: for each coordinate of the nested loops, one step
with `active = [coord]` then one step with `completed = [coord]`. -/
def naiveRun (it : NaiveIterator) : List IterationStep :=
  (naiveCoords it).flatMap naivePair

/-! ## Pipeline combinators

The Tiled and Wavefront schedulers share one loop shape: per phase, if the
phase's active set is non-empty, emit a step whose `completed` is the
previous emitted active set, then remember the new active set; after the
loop, flush the remembered set if non-empty.  The Blocked/Tensor
schedulers instead emit a mid-run draining step whenever the active set is
empty but a backlog is pending, and have no final flush.  The combinators
below are these two loops, with the phase list (active set and
description per iteration) precomputed. -/

/-- The `Tiled`/`Wavefront` emission loop plus final flush. -/
def skipFlushRun (flushDesc : String) : List Coord → List (List Coord × String) → List IterationStep
  | pending, [] => if pending = [] then [] else [⟨[], pending, flushDesc⟩]
  | pending, (a, d) :: rest =>
    if a = [] then skipFlushRun flushDesc pending rest
    else ⟨a, pending, d⟩ :: skipFlushRun flushDesc a rest

/-- The `Blocked`/`Tensor` emission loop with mid-run draining steps. -/
def drainRun : List Coord → List (List Coord × String) → List IterationStep
  | _, [] => []
  | pending, (a, d) :: rest =>
    if a = [] then
      if pending = [] then drainRun pending rest
      else
        let fin := "Finishing..."
        ⟨[], pending, fin⟩ :: drainRun [] rest
    else ⟨a, pending, d⟩ :: drainRun a rest

/-! ## Tiled scheduler -/

/-- The `TiledIterator` instance state. -/
structure TiledIterator where
  M : Int
  N : Int
  K : Int
  tile_size : Int
  tile_k : Int
deriving DecidableEq, Repr

/-- `TiledIterator.__init__`: stores the fields; performs no validation. -/
def tiledMk (M N K ts tk : Int) : Except String TiledIterator :=
  Except.ok ⟨M, N, K, ts, tk⟩

/-- The coordinates of one tile with origin `(ib, jb, kb)`, clipped at the
shape boundary. -/
def tileCoords (it : TiledIterator) (ib jb kb : Int) : List Coord :=
  (intRangeFT ib (min (ib + it.tile_size) it.M)).flatMap (fun i =>
    (intRangeFT jb (min (jb + it.tile_size) it.N)).flatMap (fun j =>
      (intRangeFT kb (min (kb + it.tile_k) it.K)).map (fun k => (i, j, k))))

/-- The per-tile phases of `TiledIterator.run`, in i-tile/j-tile/k-tile
row-major order. -/
def tiledPhases (it : TiledIterator) : List (List Coord × String) :=
  let d := "Processing Tile"
  (rangeStep 0 it.M it.tile_size).flatMap (fun ib =>
    (rangeStep 0 it.N it.tile_size).flatMap (fun jb =>
      (rangeStep 0 it.K it.tile_k).map (fun kb => (tileCoords it ib jb kb, d))))

/-- `TiledIterator.run`. -/
def tiledRun (it : TiledIterator) : List IterationStep :=
  let d := "Done"
  skipFlushRun d [] (tiledPhases it)

/-! ## Wavefront (Systolic) scheduler -/

/-- The `SystolicIterator` instance state. -/
structure SystolicIterator where
  M : Int
  N : Int
  K : Int
deriving DecidableEq, Repr

/-- `SystolicIterator.__init__`: stores the shape; no validation. -/
def systolicMk (M N K : Int) : Except String SystolicIterator :=
  Except.ok ⟨M, N, K⟩

/-- The wavefront at time `t`: coordinates found by fixing `i, j` and
keeping `k = t - i - j` when `0 ≤ k < K`. -/
def wavefront (M N K t : Int) : List Coord :=
  (intRange M).flatMap (fun i =>
    (intRange N).flatMap (fun j =>
      let k := t - i - j
      if 0 ≤ k ∧ k < K then [(i, j, k)] else []))

/-- Description of a wavefront step. -/
def waveDesc (t : Int) : String := "Systolic Wavefront t=" ++ toString t

/-- The per-time phases of `SystolicIterator.run`, for
`0 ≤ t ≤ (M-1)+(N-1)+(K-1)`. -/
def systolicPhases (it : SystolicIterator) : List (List Coord × String) :=
  let maxT := (it.M - 1) + (it.N - 1) + (it.K - 1)
  (intRange (maxT + 1)).map (fun t => (wavefront it.M it.N it.K t, waveDesc t))

/-- `SystolicIterator.run`. -/
def systolicRun (it : SystolicIterator) : List IterationStep :=
  let d := "Done"
  skipFlushRun d [] (systolicPhases it)

/-! ## Blocked Systolic scheduler -/

/-- One entry of the `blocks` list built by
`BlockedSystolicIterator.run` (and, on the macro lattice, by
`TensorSystolicIterator.run`). -/
structure BlockInfo where
  iBase : Int
  jBase : Int
  mCurr : Int
  nCurr : Int
  kCurr : Int
deriving DecidableEq, Repr

/-- The `BlockedSystolicIterator` instance state. -/
structure BlockedSystolicIterator where
  M : Int
  N : Int
  K : Int
  array_size : Int
deriving DecidableEq, Repr

/-- `BlockedSystolicIterator.__init__`: stores the fields; no validation. -/
def blockedMk (M N K S : Int) : Except String BlockedSystolicIterator :=
  Except.ok ⟨M, N, K, S⟩

/-- The S×S output-plane blocks (clipped at the `M`, `N` boundaries), in
row-major order; each keeps the full reduction extent `K`. -/
def mkBlocks (M N K S : Int) : List BlockInfo :=
  (rangeStep 0 M S).flatMap (fun ib =>
    (rangeStep 0 N S).map (fun jb =>
      ⟨ib, jb, min (ib + S) M - ib, min (jb + S) N - jb, K⟩))

/-- The start-time accumulation loop: each block starts `K` after the
previous one. -/
def schedAux (K : Int) : Int → List BlockInfo → List (BlockInfo × Int)
  | _, [] => []
  | start, b :: rest => (b, start) :: schedAux K (start + K) rest

/-- The `block_schedules` list: blocks paired with start times `0, K, 2K, …`. -/
def mkSchedules (K : Int) (blocks : List BlockInfo) : List (BlockInfo × Int) :=
  schedAux K 0 blocks

/-- A block's local wavefront duration `(M_curr-1)+(N_curr-1)+(K_curr-1)`. -/
def blockDur (b : BlockInfo) : Int :=
  (b.mCurr - 1) + (b.nCurr - 1) + (b.kCurr - 1)

/-- The global coordinates block `b` (started at `start`) contributes at
global time `t`: its local wavefront at `local_t = t - start`, translated
by the block's base offset. -/
def blockActiveAt (b : BlockInfo) (start t : Int) : List Coord :=
  let lt := t - start
  if 0 ≤ lt ∧ lt ≤ blockDur b then
    (intRange b.mCurr).flatMap (fun il =>
      (intRange b.nCurr).flatMap (fun jl =>
        let kl := lt - il - jl
        if 0 ≤ kl ∧ kl < b.kCurr then [(b.iBase + il, b.jBase + jl, kl)] else []))
  else []

/-- The union (in schedule order) of all blocks' contributions at time `t`. -/
def blockedActiveAt (scheds : List (BlockInfo × Int)) (t : Int) : List Coord :=
  scheds.flatMap (fun sb => blockActiveAt sb.1 sb.2 t)

/-- The step description at time `t`, naming the blocks active there. -/
def blockedDescAt (scheds : List (BlockInfo × Int)) (t : Int) : String :=
  let names := scheds.filterMap (fun sb =>
    if blockActiveAt sb.1 sb.2 t = [] then none
    else some ("[" ++ toString sb.1.iBase ++ ":" ++ toString sb.1.jBase ++ "]"))
  let sep := ", "
  "Global t=" ++ toString t ++ ", Active Blocks: " ++ String.intercalate sep names

/-- The global-time loop shared verbatim by `BlockedSystolicIterator.run`
and `TensorSystolicIterator.run`: empty when there are no blocks;
otherwise the draining emission loop over global times `0` to
`max_global_time = last_start + last_duration + 1`, with `phaseAt` giving
each time's active set and description. -/
def drainLoop (phaseAt : Int → List Coord × String) (scheds : List (BlockInfo × Int)) :
    List IterationStep :=
  match scheds.getLast? with
  | none => []
  | some last => drainRun [] ((intRange (last.2 + blockDur last.1 + 1 + 1)).map phaseAt)

/-- `BlockedSystolicIterator.run`. -/
def blockedRun (it : BlockedSystolicIterator) : List IterationStep :=
  let scheds := mkSchedules it.K (mkBlocks it.M it.N it.K it.array_size)
  drainLoop (fun t => (blockedActiveAt scheds t, blockedDescAt scheds t)) scheds

/-! ## Tensor-Core Systolic scheduler -/

/-- The `TensorSystolicIterator` instance state. -/
structure TensorSystolicIterator where
  M : Int
  N : Int
  K : Int
  array_size : Int
  micro_size : Int × Int × Int
deriving DecidableEq, Repr

/-- `TensorSystolicIterator.__init__`: stores the fields; no validation. -/
def tensorMk (M N K S : Int) (micro : Int × Int × Int) : Except String TensorSystolicIterator :=
  Except.ok ⟨M, N, K, S, micro⟩

/-- Python `(a + b - 1) // b` (ceiling division; `//` is floor division). -/
def ceilDivI (a b : Int) : Int := (a + b - 1).fdiv b

/-- The micro-tile expansion of one lattice coordinate: the Cartesian
product of `[mi*M2, min((mi+1)*M2, M))`, `[mj*N2, min((mj+1)*N2, N))`,
`[mk*K2, min((mk+1)*K2, K))`. -/
def expandMicro (M N K M2 N2 K2 : Int) (c : Coord) : List Coord :=
  (intRangeFT (c.1 * M2) (min ((c.1 + 1) * M2) M)).flatMap (fun x =>
    (intRangeFT (c.2.1 * N2) (min ((c.2.1 + 1) * N2) N)).flatMap (fun y =>
      (intRangeFT (c.2.2 * K2) (min ((c.2.2 + 1) * K2) K)).map (fun z => (x, y, z))))

/-- The fine coordinates block `b` contributes at global time `t` in the
tensor scheduler: the block's local wavefront on the lattice, each lattice
coordinate expanded to its micro tile in place. -/
def tensorBlockActiveAt (M N K M2 N2 K2 : Int) (b : BlockInfo) (start t : Int) : List Coord :=
  let lt := t - start
  if 0 ≤ lt ∧ lt ≤ blockDur b then
    (intRange b.mCurr).flatMap (fun il =>
      (intRange b.nCurr).flatMap (fun jl =>
        let kl := lt - il - jl
        if 0 ≤ kl ∧ kl < b.kCurr then
          expandMicro M N K M2 N2 K2 (b.iBase + il, b.jBase + jl, kl)
        else []))
  else []

/-- The union of all blocks' fine contributions at time `t`. -/
def tensorActiveAt (M N K M2 N2 K2 : Int) (scheds : List (BlockInfo × Int)) (t : Int) : List Coord :=
  scheds.flatMap (fun sb => tensorBlockActiveAt M N K M2 N2 K2 sb.1 sb.2 t)

/-- Description of a tensor-core step. -/
def tensorDesc (t : Int) : String := "Tensor Core Step t=" ++ toString t

/-- `TensorSystolicIterator.run`: the blocked-systolic loop on the
`ceil`-divided lattice, with in-place micro expansion of every active
lattice coordinate. -/
def tensorRun (it : TensorSystolicIterator) : List IterationStep :=
  let M2 := it.micro_size.1
  let N2 := it.micro_size.2.1
  let K2 := it.micro_size.2.2
  let Mm := ceilDivI it.M M2
  let Nm := ceilDivI it.N N2
  let Km := ceilDivI it.K K2
  let scheds := mkSchedules Km (mkBlocks Mm Nm Km it.array_size)
  drainLoop (fun t => (tensorActiveAt it.M it.N it.K M2 N2 K2 scheds t, tensorDesc t)) scheds

/-! ## C1: the schedule invariant fails for the Blocked Systolic scheduler

With `M = 4`, `N = 5`, `K = 1`, `array_size = 4` there are two blocks: the
full 4×4 block at `(0,0)` (start time 0, duration 6) and the clipped 4×1
block at `(0,4)` (start time 1, duration 3).  The global time loop runs
only to `max_global_time = 1 + 3 + 1 = 5`, yet the first block is still
active at `t = 6`, where it would fire `(3,3,0)`.  That coordinate is
therefore never emitted as active (nor, consequently, as completed). -/

/-- C1 (code bug): for Blocked Systolic with `M = 4, N = 5, K = 1,
array_size = 4` — a shape and parameter the spec declares valid — the
in-range coordinate `(3,3,0)` appears in no step's `active` set and in no
step's `completed` set over the full run, contradicting the schedule
invariant that every coordinate appears exactly once in each role. -/
theorem blocked_coverage_violation :
    ((0 : Int) ≤ 3 ∧ (3 : Int) < 4 ∧ (0 : Int) ≤ 3 ∧ (3 : Int) < 5 ∧ (0 : Int) ≤ 0 ∧ (0 : Int) < 1) ∧
    ∀ s ∈ blockedRun ⟨4, 5, 1, 4⟩,
      ((3 : Int), (3 : Int), (0 : Int)) ∉ s.active ∧ ((3 : Int), (3 : Int), (0 : Int)) ∉ s.completed := by
  decide

/-! ## C2, C3: no construction-time validation exists -/

/-- C2 (counterexample): constructing every one of the five schedulers
with `M = 0` succeeds — no `InvalidShape` condition is raised, contrary to
the claim that construction with a non-positive dimension fails. -/
theorem shape_zero_constructs :
    (naiveMk 0 2 2 ['i', 'j', 'k']).isOk = true ∧
    (tiledMk 0 2 2 2 2).isOk = true ∧
    (systolicMk 0 2 2).isOk = true ∧
    (blockedMk 0 2 2 4).isOk = true ∧
    (tensorMk 0 2 2 4 (2, 2, 2)).isOk = true := by
  decide

/-- C2 (amended): construction performs no shape validation — every
scheduler constructed with `M = 0` (and arbitrary further parameters)
succeeds, and the Naive scheduler then produces an empty sequence. -/
theorem shape_unvalidated (N K ts tk S : Int) (micro : Int × Int × Int) :
    (naiveMk 0 N K ['i', 'j', 'k']).isOk = true ∧
    (tiledMk 0 N K ts tk).isOk = true ∧
    (systolicMk 0 N K).isOk = true ∧
    (blockedMk 0 N K S).isOk = true ∧
    (tensorMk 0 N K S micro).isOk = true ∧
    (∀ it, naiveMk 0 N K ['i', 'j', 'k'] = Except.ok it → naiveRun it = []) := by
  refine ⟨rfl, rfl, rfl, rfl, rfl, ?_⟩
  intro it h
  simp only [naiveMk, naiveValid, setEqChars, ijkChars] at h
  simp at h
  subst h
  rfl

/-- Witness for the amended C2 at `N = K = 2`. -/
theorem shape_unvalidated_witness : naiveRun ⟨0, 2, 2, ['i', 'j', 'k']⟩ = [] :=
  (shape_unvalidated 2 2 2 2 2 (2, 2, 2)).2.2.2.2.2 ⟨0, 2, 2, ['i', 'j', 'k']⟩ rfl

/-- C3 (counterexample): constructing Tiled with `tile_size = 0` (and
likewise Tiled with `tile_k = 0`, Blocked Systolic with `array_size = 0`,
Tensor-Core Systolic with a zero micro shape) succeeds — no
`InvalidConfiguration` condition is raised at construction. -/
theorem config_zero_constructs :
    (tiledMk 2 2 2 0 2).isOk = true ∧
    (tiledMk 2 2 2 2 0).isOk = true ∧
    (blockedMk 2 2 2 0).isOk = true ∧
    (tensorMk 2 2 2 0 (0, 0, 0)).isOk = true := by
  decide

/-- C3 (amended): the Tiled, Blocked Systolic, and Tensor-Core Systolic
constructors never fail, whatever the values of `tile_size`, `tile_k`,
`array_size`, or `micro_size`: these parameters are not validated at
construction time. -/
theorem config_unvalidated (M N K ts tk S : Int) (micro : Int × Int × Int) :
    (tiledMk M N K ts tk).isOk = true ∧
    (blockedMk M N K S).isOk = true ∧
    (tensorMk M N K S micro).isOk = true := by
  exact ⟨rfl, rfl, rfl⟩

/-! ## C9: determinism

The five strategies behind one selector, as the driver uses them.  Each
`run` in the embedding is a pure function of the constructed instance, so
two instances built from the same configuration are equal and their step
sequences (lengths, `active` and `completed` lists in order, and
descriptions) coincide. -/

/-- A strategy selector together with its construction parameters. -/
inductive SchedulerConfig where
  | naiveCfg (M N K : Int) (order : List Char)
  | tiledCfg (M N K ts tk : Int)
  | waveCfg (M N K : Int)
  | blockedCfg (M N K S : Int)
  | tensorCfg (M N K S : Int) (micro : Int × Int × Int)
deriving DecidableEq, Repr

/-- A constructed scheduler of any of the five strategies. -/
inductive Scheduler where
  | naiveS : NaiveIterator → Scheduler
  | tiledS : TiledIterator → Scheduler
  | waveS : SystolicIterator → Scheduler
  | blockedS : BlockedSystolicIterator → Scheduler
  | tensorS : TensorSystolicIterator → Scheduler
deriving DecidableEq, Repr

/-- Dispatch construction to the strategy named by the configuration. -/
def mkScheduler : SchedulerConfig → Except String Scheduler
  | .naiveCfg M N K order => (naiveMk M N K order).map Scheduler.naiveS
  | .tiledCfg M N K ts tk => (tiledMk M N K ts tk).map Scheduler.tiledS
  | .waveCfg M N K => (systolicMk M N K).map Scheduler.waveS
  | .blockedCfg M N K S => (blockedMk M N K S).map Scheduler.blockedS
  | .tensorCfg M N K S micro => (tensorMk M N K S micro).map Scheduler.tensorS

/-- Dispatch `run()` to the constructed strategy. -/
def schedulerRun : Scheduler → List IterationStep
  | .naiveS it => naiveRun it
  | .tiledS it => tiledRun it
  | .waveS it => systolicRun it
  | .blockedS it => blockedRun it
  | .tensorS it => tensorRun it

/-- C9: two scheduler instances constructed from one identical
configuration produce identical step sequences — the same steps, in the
same order, with identical `active` lists, `completed` lists and
descriptions (list equality of `IterationStep`s). -/
theorem scheduler_deterministic (cfg : SchedulerConfig) (s₁ s₂ : Scheduler)
    (h₁ : mkScheduler cfg = Except.ok s₁) (h₂ : mkScheduler cfg = Except.ok s₂) :
    schedulerRun s₁ = schedulerRun s₂ := by
  rw [h₁] at h₂
  cases h₂
  rfl

/-- Witness for C9 at a concrete configuration. -/
theorem scheduler_deterministic_witness :
    schedulerRun (Scheduler.blockedS ⟨4, 4, 2, 2⟩) = schedulerRun (Scheduler.blockedS ⟨4, 4, 2, 2⟩) :=
  scheduler_deterministic (SchedulerConfig.blockedCfg 4 4 2 2) _ _ rfl rfl

/-! ## C5: the pipeline-lag property

`lagOkAux last steps` walks the emitted steps while tracking in `last` the
`active` list of the most recent step so far whose `active` was non-empty
(`none` before any such step); it checks that every step with a non-empty
`completed` list reports exactly that tracked list.  `lagOk` is the check
over a full run — the claim's pipeline-lag property verbatim. -/

def lagOkAux : Option (List Coord) → List IterationStep → Bool
  | _, [] => true
  | last, s :: rest =>
    (decide (s.completed = []) || decide (last = some s.completed)) &&
      lagOkAux (if s.active = [] then last else some s.active) rest

/-- The pipeline-lag property of a whole run. -/
def lagOk (steps : List IterationStep) : Bool := lagOkAux none steps

/-- The skip/flush emission loop preserves the pipeline-lag invariant:
`pending` is empty or is exactly the tracked last non-empty active set. -/
theorem lagOkAux_skipFlushRun (fd : String) :
    ∀ (phases : List (List Coord × String)) (pending : List Coord) (last : Option (List Coord)),
      (pending = [] ∨ last = some pending) →
      lagOkAux last (skipFlushRun fd pending phases) = true := by
  intro phases
  induction phases with
  | nil =>
    intro pending last h
    by_cases hp : pending = []
    · simp [skipFlushRun, hp, lagOkAux]
    · rcases h with h | h
      · exact absurd h hp
      · simp [skipFlushRun, hp, lagOkAux, h]
  | cons p rest ih =>
    intro pending last h
    obtain ⟨a, d⟩ := p
    by_cases ha : a = []
    · simpa [skipFlushRun, ha] using ih pending last h
    · rcases h with h | h
      · simp [skipFlushRun, ha, lagOkAux, h]
        exact ih a (some a) (Or.inr rfl)
      · simp [skipFlushRun, ha, lagOkAux, h]
        exact ih a (some a) (Or.inr rfl)

/-- The draining emission loop preserves the same invariant. -/
theorem lagOkAux_drainRun :
    ∀ (phases : List (List Coord × String)) (pending : List Coord) (last : Option (List Coord)),
      (pending = [] ∨ last = some pending) →
      lagOkAux last (drainRun pending phases) = true := by
  intro phases
  induction phases with
  | nil => intro pending last _; simp [drainRun, lagOkAux]
  | cons p rest ih =>
    intro pending last h
    obtain ⟨a, d⟩ := p
    by_cases ha : a = []
    · by_cases hp : pending = []
      · simpa [drainRun, ha, hp] using ih pending last h
      · rcases h with h | h
        · exact absurd h hp
        · simp [drainRun, ha, hp, lagOkAux, h]
          exact ih [] (some pending) (Or.inl rfl)
    · rcases h with h | h
      · simp [drainRun, ha, lagOkAux, h]
        exact ih a (some a) (Or.inr rfl)
      · simp [drainRun, ha, lagOkAux, h]
        exact ih a (some a) (Or.inr rfl)

/-- The draining runs of the Blocked/Tensor schedulers satisfy the check,
whatever phase function fills the timeline. -/
theorem lagOk_drainLoop (f : Int → List Coord × String) (scheds : List (BlockInfo × Int)) :
    lagOk (drainLoop f scheds) = true := by
  unfold drainLoop
  cases scheds.getLast? with
  | none => rfl
  | some last => exact lagOkAux_drainRun _ _ _ (Or.inl rfl)

/-- C5: for the Tiled, Wavefront, Blocked Systolic, and Tensor-Core
Systolic schedulers (any shape and parameters), every emitted step whose
`completed` list is non-empty reports exactly the `active` list of the
most recent prior emitted step whose `active` list was non-empty. -/
theorem pipeline_lag_all (ti : TiledIterator) (si : SystolicIterator)
    (bi : BlockedSystolicIterator) (xi : TensorSystolicIterator) :
    lagOk (tiledRun ti) = true ∧ lagOk (systolicRun si) = true ∧
    lagOk (blockedRun bi) = true ∧ lagOk (tensorRun xi) = true := by
  refine ⟨?_, ?_, ?_, ?_⟩
  · exact lagOkAux_skipFlushRun _ _ _ _ (Or.inl rfl)
  · exact lagOkAux_skipFlushRun _ _ _ _ (Or.inl rfl)
  · exact lagOk_drainLoop _ (mkSchedules bi.K (mkBlocks bi.M bi.N bi.K bi.array_size))
  · exact lagOk_drainLoop _ (mkSchedules (ceilDivI xi.K xi.micro_size.2.2)
      (mkBlocks (ceilDivI xi.M xi.micro_size.1) (ceilDivI xi.N xi.micro_size.2.1)
        (ceilDivI xi.K xi.micro_size.2.2) xi.array_size))

/-! ## Range helper lemmas -/

theorem intRange_length (n : Int) : (intRange n).length = n.toNat := by
  simp [intRange]

theorem mem_intRange {n x : Int} : x ∈ intRange n ↔ 0 ≤ x ∧ x < n := by
  simp only [intRange, List.mem_map, List.mem_range]
  constructor
  · rintro ⟨m, hm, rfl⟩
    omega
  · rintro ⟨h0, hn⟩
    exact ⟨x.toNat, by omega, by omega⟩

theorem intRange_getElem? {n : Int} {m : ℕ} (h : m < n.toNat) :
    (intRange n)[m]? = some (m : Int) := by
  simp [intRange, List.getElem?_map, List.getElem?_range h]

theorem intRange_getLast? {n : Int} (h : 1 ≤ n) : (intRange n).getLast? = some (n - 1) := by
  obtain ⟨m, hm⟩ : ∃ m, n.toNat = m + 1 := ⟨n.toNat - 1, by omega⟩
  rw [intRange, List.getLast?_map, hm, List.range_succ, List.getLast?_concat]
  simp
  omega

theorem intRangeFT_length (a b : Int) : (intRangeFT a b).length = (b - a).toNat := by
  simp [intRangeFT]

theorem mem_intRangeFT {a b x : Int} : x ∈ intRangeFT a b ↔ a ≤ x ∧ x < b := by
  simp only [intRangeFT, List.mem_map, List.mem_range]
  constructor
  · rintro ⟨m, hm, rfl⟩
    omega
  · rintro ⟨h0, hn⟩
    exact ⟨(x - a).toNat, by omega, by omega⟩

theorem filter_flatMap {α β : Type} (l : List α) (f : α → List β) (p : β → Bool) :
    (l.flatMap f).filter p = l.flatMap (fun a => (f a).filter p) := by
  induction l with
  | nil => rfl
  | cons x xs ih => simp [List.flatMap_cons, List.filter_append, ih]

/-- Filtering `range n` (cast to `Int`) for one target value. -/
theorem range_filter_int (n : ℕ) (c : Int) :
    ((List.range n).map (Nat.cast : ℕ → Int)).filter (fun x => decide (x = c)) =
      if 0 ≤ c ∧ c < (n : Int) then [c] else [] := by
  induction n with
  | zero =>
    simp only [List.range_zero, List.map_nil, List.filter_nil]
    split
    · omega
    · rfl
  | succ n ih =>
    rw [List.range_succ, List.map_append, List.filter_append, ih]
    by_cases hc : (n : Int) = c
    · have h1 : ¬(0 ≤ c ∧ c < (n : Int)) := by omega
      have h2 : 0 ≤ c ∧ c < ((n : ℕ) + 1 : Int) := by omega
      simp [h1, hc, h2]
    · have h2 : (0 ≤ c ∧ c < ((n : ℕ) + 1 : Int)) ↔ (0 ≤ c ∧ c < (n : Int)) := by omega
      simp only [List.map_cons, List.map_nil, List.filter_cons]
      simp [hc, h2]

theorem intRange_filter_single (K c : Int) :
    (intRange K).filter (fun x => decide (x = c)) = if 0 ≤ c ∧ c < K then [c] else [] := by
  rw [intRange, range_filter_int]
  congr 1
  simp
  omega

/-! ## C7: the Wavefront scheduler -/

/-- The full coordinate space `[0,M) × [0,N) × [0,K)` in lexicographic
order. -/
def coordSpace (M N K : Int) : List Coord :=
  (intRange M).flatMap (fun i =>
    (intRange N).flatMap (fun j =>
      (intRange K).map (fun k => (i, j, k))))

/-- The claim's wavefront at time `t`: the in-range coordinates whose
indices sum to `t`. -/
def waveSpec (M N K t : Int) : List Coord :=
  (coordSpace M N K).filter (fun c => decide (c.1 + c.2.1 + c.2.2 = t))

/-- The code's wavefront computation (fix `i, j`, solve for `k`) produces
exactly the in-range coordinates with index sum `t`, in the same order. -/
theorem wavefront_eq_waveSpec (M N K t : Int) :
    wavefront M N K t = waveSpec M N K t := by
  unfold wavefront waveSpec coordSpace
  rw [filter_flatMap]
  refine List.flatMap_congr ?_
  intro i _
  rw [filter_flatMap]
  refine List.flatMap_congr ?_
  intro j _
  rw [List.filter_map]
  have hp : ∀ x ∈ intRange K,
      ((fun c => decide (c.1 + c.2.1 + c.2.2 = t)) ∘ (fun k => (i, j, k))) x
        = (fun x => decide (x = t - i - j)) x := by
    intro x _
    simp only [Function.comp]
    by_cases h : i + j + x = t
    · simp [h]
      omega
    · simp [h]
      omega
  rw [List.filter_congr hp, intRange_filter_single,
    apply_ite (List.map (fun k => (i, j, k)))]
  rfl

/-- Every time value in range has a non-empty wavefront. -/
theorem wavefront_nonempty (M N K t : Int) (hM : 1 ≤ M) (hN : 1 ≤ N) (hK : 1 ≤ K)
    (h0 : 0 ≤ t) (ht : t ≤ (M - 1) + (N - 1) + (K - 1)) :
    wavefront M N K t ≠ [] := by
  have hmem : (min t (M - 1), min (t - min t (M - 1)) (N - 1),
      t - min t (M - 1) - min (t - min t (M - 1)) (N - 1)) ∈ wavefront M N K t := by
    unfold wavefront
    rw [List.mem_flatMap]
    refine ⟨min t (M - 1), mem_intRange.mpr (by omega), ?_⟩
    rw [List.mem_flatMap]
    refine ⟨min (t - min t (M - 1)) (N - 1), mem_intRange.mpr (by omega), ?_⟩
    have hcond : 0 ≤ t - min t (M - 1) - min (t - min t (M - 1)) (N - 1) ∧
        t - min t (M - 1) - min (t - min t (M - 1)) (N - 1) < K := by omega
    simp only [hcond, and_self, if_true]
    simp
  exact List.ne_nil_of_mem hmem

/-- With all phases non-empty (and a non-trivial run), the skip/flush loop
emits one step per phase plus the final flush. -/
theorem skipFlushRun_length (fd : String) :
    ∀ (phases : List (List Coord × String)) (pending : List Coord),
      (∀ p ∈ phases, p.1 ≠ []) → (phases = [] → pending ≠ []) →
      (skipFlushRun fd pending phases).length = phases.length + 1 := by
  intro phases
  induction phases with
  | nil =>
    intro pending _ hp
    simp [skipFlushRun, hp rfl]
  | cons p rest ih =>
    intro pending hne _
    obtain ⟨a, d⟩ := p
    have ha : a ≠ [] := hne (a, d) (by simp)
    simp only [skipFlushRun, ha, if_false, List.length_cons]
    have := ih a (fun q hq => hne q (by simp [hq])) (fun _ => ha)
    omega

/-- With all phases non-empty, the `n`-th emitted step's `active` list is
the `n`-th phase's active list. -/
theorem skipFlushRun_getElem_active (fd : String) :
    ∀ (phases : List (List Coord × String)) (pending : List Coord) (n : ℕ)
      (hn : n < phases.length), (∀ p ∈ phases, p.1 ≠ []) →
      ∃ s, (skipFlushRun fd pending phases)[n]? = some s ∧
        s.active = (phases.get ⟨n, hn⟩).1 ∧ s.description = (phases.get ⟨n, hn⟩).2 := by
  intro phases
  induction phases with
  | nil => intro _ n hn _; simp at hn
  | cons p rest ih =>
    intro pending n hn hne
    obtain ⟨a, d⟩ := p
    have ha : a ≠ [] := hne (a, d) (by simp)
    cases n with
    | zero =>
      refine ⟨⟨a, pending, d⟩, ?_, rfl, rfl⟩
      simp [skipFlushRun, ha]
    | succ n =>
      have hn' : n < rest.length := by simpa using hn
      obtain ⟨s, hs, hact, hdesc⟩ := ih a n hn' (fun q hq => hne q (by simp [hq]))
      refine ⟨s, ?_, hact, hdesc⟩
      simp [skipFlushRun, ha, List.getElem?_cons_succ, hs]

/-- With all phases non-empty, the step after the last phase is the final
flush: empty `active`, the last phase's active list as `completed`. -/
theorem skipFlushRun_flush (fd : String) :
    ∀ (phases : List (List Coord × String)) (pending : List Coord) (q : List Coord × String),
      (∀ p ∈ phases, p.1 ≠ []) → phases.getLast? = some q →
      (skipFlushRun fd pending phases)[phases.length]? = some ⟨[], q.1, fd⟩ := by
  intro phases
  induction phases with
  | nil => intro _ _ _ h; simp at h
  | cons p rest ih =>
    intro pending q hne hlast
    obtain ⟨a, d⟩ := p
    have ha : a ≠ [] := hne (a, d) (by simp)
    cases rest with
    | nil =>
      simp only [List.getLast?_singleton, Option.some.injEq] at hlast
      subst hlast
      simp [skipFlushRun, ha]
    | cons r rs =>
      have hlast' : (r :: rs).getLast? = some q := by
        rwa [List.getLast?_cons_cons] at hlast
      have := ih a q (fun x hx => hne x (by simp [hx])) hlast'
      simp only [skipFlushRun, ha, if_false, List.length_cons, List.getElem?_cons_succ]
      exact this

/-- C7: for every shape with `M, N, K ≥ 1`, the Wavefront scheduler emits
exactly `(M-1)+(N-1)+(K-1)+1` wavefront steps plus one final flush step;
the step at position `t` has as `active` exactly the in-range coordinates
with index sum `t` (non-empty for every such `t`), and the final step is
the flush with empty `active` and the last wavefront as `completed`. -/
theorem wavefront_run_characterization (M N K : Int)
    (hM : 1 ≤ M) (hN : 1 ≤ N) (hK : 1 ≤ K) :
    (systolicRun ⟨M, N, K⟩).length = ((M - 1) + (N - 1) + (K - 1) + 1).toNat + 1 ∧
    (∀ n : ℕ, (n : Int) < (M - 1) + (N - 1) + (K - 1) + 1 →
      ∃ s, (systolicRun ⟨M, N, K⟩)[n]? = some s ∧
        s.active = waveSpec M N K (n : Int) ∧ s.active ≠ []) ∧
    (systolicRun ⟨M, N, K⟩)[((M - 1) + (N - 1) + (K - 1) + 1).toNat]? =
      some ⟨[], waveSpec M N K ((M - 1) + (N - 1) + (K - 1)), "Done"⟩ := by
  have hrun : systolicRun ⟨M, N, K⟩ = skipFlushRun "Done" [] (systolicPhases ⟨M, N, K⟩) := rfl
  set maxT : Int := (M - 1) + (N - 1) + (K - 1) with hmaxT
  have hplen : (systolicPhases ⟨M, N, K⟩).length = (maxT + 1).toNat := by
    simp [systolicPhases, intRange_length]
  have hne : ∀ p ∈ systolicPhases ⟨M, N, K⟩, p.1 ≠ [] := by
    intro p hp
    simp only [systolicPhases, List.mem_map] at hp
    obtain ⟨t, ht, rfl⟩ := hp
    have := mem_intRange.mp ht
    exact wavefront_nonempty M N K t hM hN hK this.1 (by omega)
  have hpnonnil : systolicPhases ⟨M, N, K⟩ ≠ [] := by
    intro h
    rw [h] at hplen
    simp at hplen
    omega
  refine ⟨?_, ?_, ?_⟩
  · rw [hrun, skipFlushRun_length "Done" _ [] hne (fun h => absurd h hpnonnil), hplen]
  · intro n hn
    have hn' : n < (systolicPhases ⟨M, N, K⟩).length := by rw [hplen]; omega
    obtain ⟨s, hs, hact, _⟩ := skipFlushRun_getElem_active "Done" _ [] n hn' hne
    have hget : (systolicPhases ⟨M, N, K⟩).get ⟨n, hn'⟩ = (wavefront M N K (n : Int), waveDesc (n : Int)) := by
      have h1 : (systolicPhases ⟨M, N, K⟩)[n]? = some (wavefront M N K (n : Int), waveDesc (n : Int)) := by
        simp only [systolicPhases]
        rw [List.getElem?_map, intRange_getElem? (by omega)]
        rfl
      have h2 : (systolicPhases ⟨M, N, K⟩)[n]? = some ((systolicPhases ⟨M, N, K⟩).get ⟨n, hn'⟩) :=
        List.getElem?_eq_getElem hn'
      rw [h1] at h2
      exact (Option.some.injEq _ _ ▸ h2.symm)
    refine ⟨s, by rwa [← hrun] at hs, ?_, ?_⟩
    · rw [hact, hget, ← wavefront_eq_waveSpec]
    · rw [hact, hget]
      exact wavefront_nonempty M N K (n : Int) hM hN hK (by omega) (by omega)
  · have hlast : (systolicPhases ⟨M, N, K⟩).getLast? = some (wavefront M N K maxT, waveDesc maxT) := by
      simp only [systolicPhases]
      rw [List.getLast?_map, intRange_getLast? (by omega),
        (by omega : maxT + 1 - 1 = maxT)]
      rfl
    have := skipFlushRun_flush "Done" _ [] _ hne hlast
    rw [hplen] at this
    rw [hrun, this, ← wavefront_eq_waveSpec]

/-- Witness for C7 at shape `(2, 2, 2)`. -/
theorem wavefront_run_characterization_witness :
    (systolicRun ⟨2, 2, 2⟩).length = (((2 : Int) - 1) + (2 - 1) + (2 - 1) + 1).toNat + 1 :=
  (wavefront_run_characterization 2 2 2 (by decide) (by decide) (by decide)).1

/-! ## C6: the Naive scheduler -/

theorem length_flatMap_const {α β : Type} (l : List α) (f : α → List β) (n : ℕ)
    (h : ∀ a ∈ l, (f a).length = n) : (l.flatMap f).length = l.length * n := by
  induction l with
  | nil => simp
  | cons x xs ih =>
    simp only [List.flatMap_cons, List.length_append, List.length_cons]
    rw [h x (by simp), ih (fun a ha => h a (by simp [ha]))]
    ring

/-- The length of a nested triple loop over `intRange`s. -/
theorem triple_loop_length (A B C : Int) (g : Int → Int → Int → Coord) :
    ((intRange A).flatMap (fun x =>
      (intRange B).flatMap (fun y =>
        (intRange C).map (fun z => g x y z)))).length = A.toNat * (B.toNat * C.toNat) := by
  have h1 : ∀ x ∈ intRange A,
      ((intRange B).flatMap (fun y => (intRange C).map (fun z => g x y z))).length
        = B.toNat * C.toNat := by
    intro x _
    have h2 : ∀ y ∈ intRange B, ((intRange C).map (fun z => g x y z)).length = C.toNat := by
      intro y _
      rw [List.length_map, intRange_length]
    rw [length_flatMap_const _ _ _ h2, intRange_length]
  rw [length_flatMap_const _ _ _ h1, intRange_length]

/-- A character list passing the Naive order validation is one of the six
permutations of `"ijk"`. -/
theorem valid_order_cases (l : List Char) (h : naiveValid l = true) :
    l = ['i', 'j', 'k'] ∨ l = ['i', 'k', 'j'] ∨ l = ['j', 'i', 'k'] ∨
    l = ['j', 'k', 'i'] ∨ l = ['k', 'i', 'j'] ∨ l = ['k', 'j', 'i'] := by
  simp only [naiveValid, setEqChars, Bool.and_eq_true, beq_iff_eq,
    List.all_eq_true] at h
  obtain ⟨⟨h1, h2⟩, hlen⟩ := h
  obtain ⟨a, b, c, rfl⟩ := List.length_eq_three.mp hlen
  have ha : a = 'i' ∨ a = 'j' ∨ a = 'k' := by simpa [ijkChars] using h1 a (by simp)
  have hb : b = 'i' ∨ b = 'j' ∨ b = 'k' := by simpa [ijkChars] using h1 b (by simp)
  have hc : c = 'i' ∨ c = 'j' ∨ c = 'k' := by simpa [ijkChars] using h1 c (by simp)
  have hi : 'i' ∈ [a, b, c] := by simpa using h2 'i' (by simp [ijkChars])
  have hj : 'j' ∈ [a, b, c] := by simpa using h2 'j' (by simp [ijkChars])
  have hk : 'k' ∈ [a, b, c] := by simpa using h2 'k' (by simp [ijkChars])
  rcases ha with rfl | rfl | rfl <;> rcases hb with rfl | rfl | rfl <;>
    rcases hc with rfl | rfl | rfl <;> revert hi hj hk <;> decide

/-- The Naive order validation accepts exactly the permutations of
`"ijk"`. -/
theorem naive_valid_iff_perm (l : List Char) :
    naiveValid l = true ↔ l.Perm ijkChars := by
  constructor
  · intro h
    rcases valid_order_cases l h with rfl | rfl | rfl | rfl | rfl | rfl <;> decide
  · intro h
    simp only [naiveValid, setEqChars, Bool.and_eq_true, beq_iff_eq,
      List.all_eq_true]
    refine ⟨⟨?_, ?_⟩, by simpa [ijkChars] using h.length_eq⟩
    · intro x hx
      simpa using h.mem_iff.mp hx
    · intro x hx
      simpa using h.mem_iff.mpr hx

/-- Inversion of a successful Naive construction. -/
theorem naiveMk_ok_iff {M N K : Int} {ord : List Char} {it : NaiveIterator} :
    naiveMk M N K ord = Except.ok it ↔
      naiveValid (ord.map Char.toLower) = true ∧
      it = ⟨M, N, K, ord.map Char.toLower⟩ := by
  by_cases hc : naiveValid (ord.map Char.toLower) = true
  · simp only [naiveMk]
    rw [if_pos hc]
    constructor
    · intro h
      injection h with h
      exact ⟨hc, h.symm⟩
    · rintro ⟨_, rfl⟩
      rfl
  · simp only [naiveMk]
    rw [if_neg hc]
    constructor
    · intro h
      exact absurd h (by simp)
    · rintro ⟨h, _⟩
      exact absurd h hc

/-- Positions of the two steps a pair-producing `flatMap` emits per
element. -/
theorem flatMap_pair_getElem {α : Type} (l : List α) (f g : α → IterationStep) :
    ∀ n, n < l.length → ∃ c, l[n]? = some c ∧
      (l.flatMap (fun a => [f a, g a]))[2 * n]? = some (f c) ∧
      (l.flatMap (fun a => [f a, g a]))[2 * n + 1]? = some (g c) := by
  induction l with
  | nil => intro n hn; simp at hn
  | cons x xs ih =>
    intro n hn
    cases n with
    | zero =>
      refine ⟨x, by simp, ?_, ?_⟩ <;> simp [List.flatMap_cons]
    | succ n =>
      obtain ⟨c, hc, h0, h1⟩ := ih n (by simpa using hn)
      refine ⟨c, by simpa using hc, ?_, ?_⟩
      · have harith : 2 * (n + 1) = 2 * n + 1 + 1 := by ring
        rw [harith]
        simpa [List.flatMap_cons] using h0
      · have harith : 2 * (n + 1) + 1 = 2 * n + 1 + 1 + 1 := by ring
        rw [harith]
        simpa [List.flatMap_cons] using h1

/-- `(M*N*K).toNat` as a product of `toNat`s, for a positive shape. -/
theorem toNat_mul3 (M N K : Int) (hM : 1 ≤ M) (hN : 1 ≤ N) (hK : 1 ≤ K) :
    (M * N * K).toNat = M.toNat * N.toNat * K.toNat := by
  have h : M * N * K = ((M.toNat * N.toNat * K.toNat : ℕ) : Int) := by
    push_cast
    rw [Int.toNat_of_nonneg (by omega), Int.toNat_of_nonneg (by omega),
      Int.toNat_of_nonneg (by omega)]
  rw [h, Int.toNat_natCast]

/-- C6: for a positive shape and a validated order, the Naive run consists
of exactly `2·M·N·K` steps; step `2n` activates the `n`-th coordinate of
the loop nest (with its MAC description) and step `2n+1` completes that
same coordinate; and for order `"ijk"` the coordinates are enumerated in
lexicographic order over the coordinate space. -/
theorem naive_run_structure (M N K : Int) (ord : List Char) (it : NaiveIterator)
    (hM : 1 ≤ M) (hN : 1 ≤ N) (hK : 1 ≤ K)
    (hmk : naiveMk M N K ord = Except.ok it) :
    (naiveCoords it).length = (M * N * K).toNat ∧
    (naiveRun it).length = (2 * (M * N * K)).toNat ∧
    (∀ n : ℕ, n < (naiveCoords it).length →
      ∃ c, (naiveCoords it)[n]? = some c ∧
        (naiveRun it)[2 * n]? = some ⟨[c], [], macDesc c.1 c.2.1 c.2.2⟩ ∧
        (naiveRun it)[2 * n + 1]? = some ⟨[], [c], "Done"⟩) ∧
    (it.order = ['i', 'j', 'k'] → naiveCoords it = coordSpace M N K) := by
  obtain ⟨hvalid, rfl⟩ := naiveMk_ok_iff.mp hmk
  have hclen : (naiveCoords ⟨M, N, K, ord.map Char.toLower⟩).length = (M * N * K).toNat := by
    rcases valid_order_cases _ hvalid with ho | ho | ho | ho | ho | ho <;>
      rw [naiveCoords, ho, triple_loop_length, toNat_mul3 M N K hM hN hK] <;>
      first
        | (show M.toNat * (N.toNat * K.toNat) = _; ring)
        | (show M.toNat * (K.toNat * N.toNat) = _; ring)
        | (show N.toNat * (M.toNat * K.toNat) = _; ring)
        | (show N.toNat * (K.toNat * M.toNat) = _; ring)
        | (show K.toNat * (M.toNat * N.toNat) = _; ring)
        | (show K.toNat * (N.toNat * M.toNat) = _; ring)
  refine ⟨hclen, ?_, ?_, ?_⟩
  · rw [naiveRun, length_flatMap_const _ naivePair 2 (fun c _ => rfl), hclen]
    omega
  · intro n hn
    exact flatMap_pair_getElem (naiveCoords ⟨M, N, K, ord.map Char.toLower⟩)
      (fun c => ⟨[c], [], macDesc c.1 c.2.1 c.2.2⟩) (fun c => ⟨[], [c], "Done"⟩) n hn
  · intro ho
    simp only at ho
    rw [naiveCoords, ho]
    rfl

/-! ## C8, C10: order validation and case-insensitivity -/

/-- C8 (counterexample): `"IKJ"` is not a permutation of the axis symbols
`i, j, k`, yet constructing Naive with `order = "IKJ"` succeeds — the
claimed "fails iff not a permutation" equivalence is false as stated. -/
theorem naive_uppercase_accepted :
    ¬ List.Perm ['I', 'K', 'J'] ijkChars ∧ (naiveMk 2 2 2 ['I', 'K', 'J']).isOk = true := by
  decide

/-- C8 (amended): Naive construction fails exactly when the lowercased
order string is not a permutation of the axis symbols; in particular
`order = "iij"` fails. -/
theorem naive_valid_orders :
    (∀ (M N K : Int) (ord : List Char),
      (naiveMk M N K ord).isOk = false ↔ ¬ List.Perm (ord.map Char.toLower) ijkChars) ∧
    (naiveMk 2 2 2 ['i', 'i', 'j']).isOk = false := by
  constructor
  · intro M N K ord
    by_cases hc : naiveValid (ord.map Char.toLower) = true
    · rw [naiveMk_ok_iff.mpr ⟨hc, rfl⟩]
      exact iff_of_false (fun h => Bool.noConfusion h)
        (not_not_intro ((naive_valid_iff_perm _).mp hc))
    · simp only [naiveMk]
      rw [if_neg hc]
      exact iff_of_true rfl (fun hperm => hc ((naive_valid_iff_perm _).mpr hperm))
  · decide

/-- Every permutation of the axis symbols is fixed by lowercasing. -/
theorem perm_toLower_fixed (p : List Char) (h : List.Perm p ijkChars) :
    p.map Char.toLower = p := by
  rcases valid_order_cases p ((naive_valid_iff_perm p).mpr h) with
    rfl | rfl | rfl | rfl | rfl | rfl <;> decide

/-- C10: constructing Naive with any case variant of a permutation of the
axis symbols succeeds, stores the lowercased order, agrees with the
construction from the lowercase string itself, and yields the same step
sequence. -/
theorem naive_case_insensitive (M N K : Int) (ord p : List Char)
    (hlow : ord.map Char.toLower = p) (hperm : List.Perm p ijkChars) :
    naiveMk M N K ord = Except.ok ⟨M, N, K, p⟩ ∧
    naiveMk M N K p = Except.ok ⟨M, N, K, p⟩ ∧
    (∀ it₁ it₂, naiveMk M N K ord = Except.ok it₁ → naiveMk M N K p = Except.ok it₂ →
      naiveRun it₁ = naiveRun it₂) := by
  have hv : naiveValid p = true := (naive_valid_iff_perm p).mpr hperm
  have h1 : naiveMk M N K ord = Except.ok ⟨M, N, K, p⟩ :=
    naiveMk_ok_iff.mpr ⟨by rw [hlow]; exact hv, by rw [hlow]⟩
  have h2 : naiveMk M N K p = Except.ok ⟨M, N, K, p⟩ :=
    naiveMk_ok_iff.mpr
      ⟨by rw [perm_toLower_fixed p hperm]; exact hv, by rw [perm_toLower_fixed p hperm]⟩
  refine ⟨h1, h2, ?_⟩
  intro it₁ it₂ hh1 hh2
  rw [h1] at hh1
  rw [h2] at hh2
  cases hh1
  cases hh2
  rfl

/-- Witness for C10 at `order = "IKJ"`. -/
theorem naive_case_insensitive_witness :
    naiveMk 2 2 2 ['I', 'K', 'J'] = Except.ok ⟨2, 2, 2, ['i', 'k', 'j']⟩ ∧
    naiveMk 2 2 2 ['i', 'k', 'j'] = Except.ok ⟨2, 2, 2, ['i', 'k', 'j']⟩ ∧
    (∀ it₁ it₂, naiveMk 2 2 2 ['I', 'K', 'J'] = Except.ok it₁ →
      naiveMk 2 2 2 ['i', 'k', 'j'] = Except.ok it₂ → naiveRun it₁ = naiveRun it₂) :=
  naive_case_insensitive 2 2 2 ['I', 'K', 'J'] ['i', 'k', 'j'] (by decide) (by decide)

/-- Witness for C6 at shape `(2, 2, 2)`, order `"ijk"`. -/
theorem naive_run_structure_witness :
    (naiveRun ⟨2, 2, 2, ['i', 'j', 'k']⟩).length = ((2 : Int) * (2 * 2 * 2)).toNat :=
  (naive_run_structure 2 2 2 ['i', 'j', 'k'] ⟨2, 2, 2, ['i', 'j', 'k']⟩
    (by decide) (by decide) (by decide) rfl).2.1

/-! ## C4: the Tensor-Core scheduler refines the Blocked Systolic scheduler

`TensorSystolicIterator.run` is `BlockedSystolicIterator.run` on the
ceiling-divided lattice `(⌈M/M2⌉, ⌈N/N2⌉, ⌈K/K2⌉)` with each lattice
coordinate expanded in place to its micro tile. -/

theorem rangeStep_mem_bounds {b s x : Int} (hs : 0 < s) (hx : x ∈ rangeStep 0 b s) :
    0 ≤ x ∧ x < b := by
  simp only [rangeStep, if_pos hs, List.mem_map, List.mem_range] at hx
  obtain ⟨m, hm, rfl⟩ := hx
  have hq := Int.ediv_add_emod (b - 0 + s - 1) s
  have hr0 : 0 ≤ (b - 0 + s - 1) % s := Int.emod_nonneg _ (by omega)
  have hrs : (b - 0 + s - 1) % s < s := Int.emod_lt_of_pos _ hs
  rw [Int.fdiv_eq_ediv _ (by omega)] at hm
  have hm' : (m : Int) ≤ (b - 0 + s - 1) / s - 1 := by omega
  have hmul : s * (m : Int) ≤ s * ((b - 0 + s - 1) / s - 1) :=
    mul_le_mul_of_nonneg_left hm' (by omega)
  have hms : 0 ≤ s * (m : Int) := mul_nonneg (by omega) (Int.natCast_nonneg m)
  have hexp : s * ((b - 0 + s - 1) / s - 1) = s * ((b - 0 + s - 1) / s) - s := by ring
  constructor
  · linarith
  · linarith

theorem mul_lt_of_lt_ceilDiv {x M M2 : Int} (hM2 : 0 < M2) (hx : x < ceilDivI M M2) :
    x * M2 < M := by
  have hq := Int.ediv_add_emod (M + M2 - 1) M2
  have hr0 : 0 ≤ (M + M2 - 1) % M2 := Int.emod_nonneg _ (by omega)
  have hrs : (M + M2 - 1) % M2 < M2 := Int.emod_lt_of_pos _ hM2
  rw [ceilDivI, Int.fdiv_eq_ediv _ (by omega)] at hx
  have hx' : x ≤ (M + M2 - 1) / M2 - 1 := by omega
  have hmul : x * M2 ≤ ((M + M2 - 1) / M2 - 1) * M2 :=
    mul_le_mul_of_nonneg_right hx' (by omega)
  have hexp : ((M + M2 - 1) / M2 - 1) * M2 = M2 * ((M + M2 - 1) / M2) - M2 := by ring
  linarith

/-- The micro expansion of an in-lattice coordinate is non-empty. -/
theorem expandMicro_ne_nil {M N K M2 N2 K2 : Int}
    (hM2 : 0 < M2) (hN2 : 0 < N2) (hK2 : 0 < K2) {c : Coord}
    (_h1 : 0 ≤ c.1) (h2 : c.1 < ceilDivI M M2)
    (_h3 : 0 ≤ c.2.1) (h4 : c.2.1 < ceilDivI N N2)
    (_h5 : 0 ≤ c.2.2) (h6 : c.2.2 < ceilDivI K K2) :
    expandMicro M N K M2 N2 K2 c ≠ [] := by
  have hstep1 : (c.1 + 1) * M2 = c.1 * M2 + M2 := by ring
  have hstep2 : (c.2.1 + 1) * N2 = c.2.1 * N2 + N2 := by ring
  have hstep3 : (c.2.2 + 1) * K2 = c.2.2 * K2 + K2 := by ring
  have hx : c.1 * M2 ∈ intRangeFT (c.1 * M2) (min ((c.1 + 1) * M2) M) := by
    rw [mem_intRangeFT]
    exact ⟨le_refl _, lt_min (by linarith) (mul_lt_of_lt_ceilDiv hM2 h2)⟩
  have hy : c.2.1 * N2 ∈ intRangeFT (c.2.1 * N2) (min ((c.2.1 + 1) * N2) N) := by
    rw [mem_intRangeFT]
    exact ⟨le_refl _, lt_min (by linarith) (mul_lt_of_lt_ceilDiv hN2 h4)⟩
  have hz : c.2.2 * K2 ∈ intRangeFT (c.2.2 * K2) (min ((c.2.2 + 1) * K2) K) := by
    rw [mem_intRangeFT]
    exact ⟨le_refl _, lt_min (by linarith) (mul_lt_of_lt_ceilDiv hK2 h6)⟩
  apply List.ne_nil_of_mem (a := (c.1 * M2, c.2.1 * N2, c.2.2 * K2))
  unfold expandMicro
  exact List.mem_flatMap.mpr ⟨_, hx,
    List.mem_flatMap.mpr ⟨_, hy, List.mem_map.mpr ⟨_, hz, rfl⟩⟩⟩

/-- Every entry of the start-time table carries a block of the table's
block list. -/
theorem mem_schedAux (Kc : Int) :
    ∀ (blocks : List BlockInfo) (start : Int) (sb : BlockInfo × Int),
      sb ∈ schedAux Kc start blocks → sb.1 ∈ blocks := by
  intro blocks
  induction blocks with
  | nil => intro start sb h; simp [schedAux] at h
  | cons b bs ih =>
    intro start sb h
    simp only [schedAux, List.mem_cons] at h
    rcases h with rfl | h
    · simp
    · exact List.mem_cons.mpr (Or.inr (ih _ sb h))

/-- Structure of a block produced by the partitioning loop. -/
theorem mem_mkBlocks {Mm Nm Km S : Int} (hS : 0 < S) {b : BlockInfo}
    (hb : b ∈ mkBlocks Mm Nm Km S) :
    0 ≤ b.iBase ∧ b.iBase + b.mCurr ≤ Mm ∧
    0 ≤ b.jBase ∧ b.jBase + b.nCurr ≤ Nm ∧ b.kCurr = Km := by
  simp only [mkBlocks, List.mem_flatMap, List.mem_map] at hb
  obtain ⟨ib, hib, jb, hjb, rfl⟩ := hb
  have h1 := rangeStep_mem_bounds hS hib
  have h2 := rangeStep_mem_bounds hS hjb
  dsimp only
  refine ⟨by omega, by omega, by omega, by omega, rfl⟩

/-- Coordinates a block contributes stay inside the lattice. -/
theorem blockActiveAt_bounds {Mm Nm Km S : Int} (hS : 0 < S) {b : BlockInfo}
    (hb : b ∈ mkBlocks Mm Nm Km S) {start t : Int} {c : Coord}
    (hc : c ∈ blockActiveAt b start t) :
    0 ≤ c.1 ∧ c.1 < Mm ∧ 0 ≤ c.2.1 ∧ c.2.1 < Nm ∧ 0 ≤ c.2.2 ∧ c.2.2 < Km := by
  obtain ⟨hib0, hibm, hjb0, hjbn, hkc⟩ := mem_mkBlocks hS hb
  simp only [blockActiveAt] at hc
  by_cases hw : 0 ≤ t - start ∧ t - start ≤ blockDur b
  · rw [if_pos hw] at hc
    simp only [List.mem_flatMap] at hc
    obtain ⟨il, hil, jl, hjl, hc⟩ := hc
    rw [mem_intRange] at hil
    rw [mem_intRange] at hjl
    by_cases hcond : 0 ≤ t - start - il - jl ∧ t - start - il - jl < b.kCurr
    · rw [if_pos hcond] at hc
      simp only [List.mem_singleton] at hc
      subst hc
      dsimp only
      omega
    · rw [if_neg hcond] at hc
      simp at hc
  · rw [if_neg hw] at hc
    simp at hc

/-- The per-block active computation of the tensor scheduler is the
blocked one with each lattice coordinate expanded in place. -/
theorem tensorBlockActiveAt_eq (M N K M2 N2 K2 : Int) (b : BlockInfo) (start t : Int) :
    tensorBlockActiveAt M N K M2 N2 K2 b start t =
      (blockActiveAt b start t).flatMap (expandMicro M N K M2 N2 K2) := by
  simp only [tensorBlockActiveAt, blockActiveAt]
  by_cases hw : 0 ≤ t - start ∧ t - start ≤ blockDur b
  · rw [if_pos hw, if_pos hw, List.flatMap_assoc]
    refine List.flatMap_congr ?_
    intro il _
    rw [List.flatMap_assoc]
    refine List.flatMap_congr ?_
    intro jl _
    by_cases hcond : 0 ≤ t - start - il - jl ∧ t - start - il - jl < b.kCurr
    · rw [if_pos hcond, if_pos hcond]
      simp
    · rw [if_neg hcond, if_neg hcond]
      rfl
  · rw [if_neg hw, if_neg hw]
    rfl

/-- Same relation lifted over the whole schedule table. -/
theorem tensorActiveAt_eq (M N K M2 N2 K2 : Int) (scheds : List (BlockInfo × Int)) (t : Int) :
    tensorActiveAt M N K M2 N2 K2 scheds t =
      (blockedActiveAt scheds t).flatMap (expandMicro M N K M2 N2 K2) := by
  unfold tensorActiveAt blockedActiveAt
  rw [List.flatMap_assoc]
  exact List.flatMap_congr (fun sb _ => tensorBlockActiveAt_eq M N K M2 N2 K2 sb.1 sb.2 t)

theorem flatMap_ne_nil {l : List Coord} {f : Coord → List Coord}
    (hl : l ≠ []) (hf : ∀ c ∈ l, f c ≠ []) : l.flatMap f ≠ [] := by
  obtain ⟨c, hc⟩ := List.exists_mem_of_ne_nil l hl
  obtain ⟨x, hx⟩ := List.exists_mem_of_ne_nil (f c) (hf c hc)
  exact List.ne_nil_of_mem (List.mem_flatMap.mpr ⟨c, hc, hx⟩)

/-- The draining loop commutes with a per-coordinate expansion that is
non-empty on every emitted coordinate (phase lists related pointwise). -/
theorem drainRun_map_rel (e : Coord → List Coord) :
    ∀ (P Q : List (List Coord × String)) (pendP pendQ : List Coord),
      List.Forall₂ (fun p q => (q.1 : List Coord) = p.1.flatMap e ∧ (p.1 = [] ↔ q.1 = [])) P Q →
      pendQ = pendP.flatMap e → (pendP = [] ↔ pendQ = []) →
      (drainRun pendQ Q).map (fun s => (s.active, s.completed)) =
        (drainRun pendP P).map (fun s => (s.active.flatMap e, s.completed.flatMap e)) := by
  intro P
  induction P with
  | nil =>
    intro Q pendP pendQ hf _ _
    cases hf
    rfl
  | cons p P ih =>
    intro Q pendP pendQ hf hpend hpiff
    cases hf with
    | cons hrel hf =>
      rename_i q Q'
      obtain ⟨hq1, hqiff⟩ := hrel
      obtain ⟨pa, pd⟩ := p
      obtain ⟨qa, qd⟩ := q
      simp only at hq1 hqiff
      by_cases hpa : pa = []
      · have hqa : qa = [] := hqiff.mp hpa
        subst hpa
        subst hqa
        by_cases hpp : pendP = []
        · have hpq : pendQ = [] := hpiff.mp hpp
          subst hpp
          subst hpq
          exact ih Q' [] [] hf rfl Iff.rfl
        · have hpq : pendQ ≠ [] := fun h => hpp (hpiff.mpr h)
          have e1 : drainRun pendQ (([], qd) :: Q') =
              ⟨[], pendQ, "Finishing..."⟩ :: drainRun [] Q' := by
            show (if pendQ = [] then _ else _) = _
            rw [if_neg hpq]
          have e2 : drainRun pendP (([], pd) :: P) =
              ⟨[], pendP, "Finishing..."⟩ :: drainRun [] P := by
            show (if pendP = [] then _ else _) = _
            rw [if_neg hpp]
          rw [e1, e2, List.map_cons, List.map_cons, ih Q' [] [] hf rfl Iff.rfl, hpend]
          rfl
      · have hqa : qa ≠ [] := fun h => hpa (hqiff.mpr h)
        have e1 : drainRun pendQ ((qa, qd) :: Q') = ⟨qa, pendQ, qd⟩ :: drainRun qa Q' := by
          show (if qa = [] then _ else _) = _
          rw [if_neg hqa]
        have e2 : drainRun pendP ((pa, pd) :: P) = ⟨pa, pendP, pd⟩ :: drainRun pa P := by
          show (if pa = [] then _ else _) = _
          rw [if_neg hpa]
        rw [e1, e2, List.map_cons, List.map_cons, ih Q' pa qa hf hq1 hqiff, hq1, hpend]

/-- Lifting the draining-loop correspondence to the shared global-time
loop. -/
theorem drainLoop_map_rel (e : Coord → List Coord) (scheds : List (BlockInfo × Int))
    (f1 f2 : Int → List Coord × String)
    (hrel : ∀ t : Int, (f2 t).1 = (f1 t).1.flatMap e ∧ ((f1 t).1 = [] ↔ (f2 t).1 = [])) :
    (drainLoop f2 scheds).map (fun s => (s.active, s.completed)) =
      (drainLoop f1 scheds).map (fun s => (s.active.flatMap e, s.completed.flatMap e)) := by
  unfold drainLoop
  cases scheds.getLast? with
  | none => rfl
  | some last =>
    refine drainRun_map_rel e _ _ [] [] ?_ rfl Iff.rfl
    rw [List.forall₂_map_left_iff, List.forall₂_map_right_iff, List.forall₂_same]
    intro t _
    exact hrel t

/-- C4: every fine-grained step of the Tensor-Core Systolic scheduler on
`(M, N, K)` with array size `S` and micro shape `(M2, N2, K2)` has, step
for step, the `active` and `completed` coordinate lists of the Blocked
Systolic scheduler run on the lattice `(⌈M/M2⌉, ⌈N/N2⌉, ⌈K/K2⌉)` with
array size `S`, with every lattice coordinate replaced by its Cartesian
micro-tile expansion. -/
theorem tensor_refines_blocked (M N K S M2 N2 K2 : Int)
    (_hM : 1 ≤ M) (_hN : 1 ≤ N) (_hK : 1 ≤ K) (hS : 1 ≤ S)
    (hM2 : 1 ≤ M2) (hN2 : 1 ≤ N2) (hK2 : 1 ≤ K2) :
    (tensorRun ⟨M, N, K, S, (M2, N2, K2)⟩).map (fun s => (s.active, s.completed)) =
      (blockedRun ⟨ceilDivI M M2, ceilDivI N N2, ceilDivI K K2, S⟩).map
        (fun s => (s.active.flatMap (expandMicro M N K M2 N2 K2),
          s.completed.flatMap (expandMicro M N K M2 N2 K2))) := by
  have hS0 : (0 : Int) < S := by omega
  simp only [tensorRun, blockedRun]
  apply drainLoop_map_rel
  intro t
  refine ⟨tensorActiveAt_eq M N K M2 N2 K2 _ t, ?_, ?_⟩
  · intro h
    simp only at h ⊢
    rw [tensorActiveAt_eq, h]
    rfl
  · intro h
    simp only at h ⊢
    rw [tensorActiveAt_eq] at h
    by_contra hne
    have hall : ∀ c ∈ blockedActiveAt
        (mkSchedules (ceilDivI K K2)
          (mkBlocks (ceilDivI M M2) (ceilDivI N N2) (ceilDivI K K2) S)) t,
        expandMicro M N K M2 N2 K2 c ≠ [] := by
      intro c hc
      simp only [blockedActiveAt, List.mem_flatMap] at hc
      obtain ⟨sb, hsb, hc'⟩ := hc
      have hbmem : sb.1 ∈ mkBlocks (ceilDivI M M2) (ceilDivI N N2) (ceilDivI K K2) S :=
        mem_schedAux (ceilDivI K K2) _ 0 sb hsb
      have hb := blockActiveAt_bounds hS0 hbmem hc'
      exact expandMicro_ne_nil (by omega) (by omega) (by omega)
        hb.1 hb.2.1 hb.2.2.1 hb.2.2.2.1 hb.2.2.2.2.1 hb.2.2.2.2.2
    exact flatMap_ne_nil hne hall h

/-- Witness for C4 at `(M, N, K) = (3, 2, 3)`, `S = 1`, micro `(2, 2, 2)`
(a shape with truncated edge tiles on every axis). -/
theorem tensor_refines_blocked_witness :
    (tensorRun ⟨3, 2, 3, 1, (2, 2, 2)⟩).map (fun s => (s.active, s.completed)) =
      (blockedRun ⟨ceilDivI 3 2, ceilDivI 2 2, ceilDivI 3 2, 1⟩).map
        (fun s => (s.active.flatMap (expandMicro 3 2 3 2 2 2),
          s.completed.flatMap (expandMicro 3 2 3 2 2 2))) :=
  tensor_refines_blocked 3 2 3 1 2 2 2 (by decide) (by decide) (by decide) (by decide)
    (by decide) (by decide) (by decide)
